import Mathlib

/-!
Shallow embedding of `BE/py_helpers/ts_parse.py` (CodebaseGenius).

Texts, paths and names are modelled as `List Char` (Python `str`).
The file system is a partial map from paths to contents.  The regex-based
extractors (`_FUNC_RE`, `_CLASS_RE`, `_JAC_NODE_RE`, `_JAC_WALKER_RE`,
`_CALL_RE`) are embedded as deterministic scanners: each of those patterns
is backtracking-free (every starred sub-pattern is followed by a character
that cannot extend it), so the greedy left-to-right scan below computes
exactly `re.findall`'s non-overlapping match list.  Character classes are
the ASCII classes written literally in the patterns.
-/

namespace TsParse

/-- Python regex `\s` (ASCII range): space, tab, newline, CR, VT, FF. -/
def isWs (c : Char) : Bool :=
  c == ' ' || c == '\t' || c == '\n' || c == '\x0d' || c == '\x0b' || c == '\x0c'

/-- The class `[A-Za-z_]` used for identifier starts in every pattern. -/
def isIdentStart (c : Char) : Bool :=
  ('A' ≤ c && c ≤ 'Z') || ('a' ≤ c && c ≤ 'z') || c == '_'

/-- The class `[A-Za-z0-9_]` (also `\w` over ASCII text). -/
def isIdentChar (c : Char) : Bool :=
  isIdentStart c || ('0' ≤ c && c ≤ '9')

/-- ASCII `str.lower` on one character. -/
def asciiLower (c : Char) : Char :=
  if 'A' ≤ c && c ≤ 'Z' then Char.ofNat (c.toNat + 32) else c

/-- `{`, written via its code point to keep it out of the source text. -/
def lbrace : Char := Char.ofNat 123

-- ---------------------------------------------------------------------
-- The `_CALL_RE` scanner:  (?<![\w.])(ident(\.ident)*)\s*\(
-- ---------------------------------------------------------------------

/-- After the dotted name, the pattern requires `\s*\(`. -/
def finishCall (acc : List Char) (rest : List Char) : Option (List Char × List Char) :=
  match rest.dropWhile isWs with
  | c :: r => if c = '(' then some (acc, r) else none
  | [] => none

/-- Greedy `(?:\.ident)*` continuation; the pattern never needs to
backtrack here because after dropping a `.ident` group the next required
character would be `(` or whitespace but a `.` is actually present. -/
def parseDots : Nat → List Char → List Char → Option (List Char × List Char)
  | fuel + 1, acc, c1 :: d :: r2 =>
    if c1 = '.' && isIdentStart d then
      parseDots fuel (acc ++ c1 :: d :: r2.takeWhile isIdentChar) (r2.dropWhile isIdentChar)
    else
      finishCall acc (c1 :: d :: r2)
  | _, acc, l => finishCall acc l

/-- One match attempt of `_CALL_RE` at the head of `l` (the look-behind is
checked by the driver).  Returns the dotted name (group 1) and the text
after the matched `(`. -/
def parseCall (l : List Char) : Option (List Char × List Char) :=
  match l with
  | [] => none
  | c :: cs =>
    if isIdentStart c then
      parseDots cs.length (c :: cs.takeWhile isIdentChar) (cs.dropWhile isIdentChar)
    else none

/-- The look-behind `(?<![\w.])`: no previous character, or a previous
character that is neither a word character nor a dot. -/
def lookOk : Option Char → Bool
  | none => true
  | some c => !(isIdentChar c || c == '.')

/-- `re.findall(_CALL_RE, text)` driver: try each position left to right,
continue after the consumed `(` on a match (non-overlapping matches).
`fuel ≥ remaining length` makes the recursion structural. -/
def scanCallsGo : Nat → Option Char → List Char → List (List Char)
  | fuel + 1, prev, c :: cs =>
    if lookOk prev then
      match parseCall (c :: cs) with
      | some (n, rest) => n :: scanCallsGo fuel (some '(') rest
      | none => scanCallsGo fuel (some c) cs
    else scanCallsGo fuel (some c) cs
  | _, _, _ => []

/-- All `_CALL_RE` matches of `text`, in order. -/
def scanCalls (text : List Char) : List (List Char) :=
  scanCallsGo text.length none text

-- ---------------------------------------------------------------------
-- The anchored declaration patterns:  ^\s*KW\s+ident\s*TERM   (re.M)
-- ---------------------------------------------------------------------

/-- One match attempt of an anchored declaration pattern at a line start:
`\s*`, the keyword, `\s+`, the identifier (group 1), `\s*`, then one of
the terminator characters (`(` for `def`, `(`/`:` for `class`, the brace
for `node`/`walker`).  Returns the name and the text after the
terminator. -/
def parseDeclKw (kw : List Char) (terms : List Char) (l : List Char) : Option (List Char × List Char) :=
  let r1 := l.dropWhile isWs
  if kw.isPrefixOf r1 then
    match r1.drop kw.length with
    | w :: r2 =>
      if isWs w then
        match r2.dropWhile isWs with
        | c :: r3 =>
          if isIdentStart c then
            match (r3.dropWhile isIdentChar).dropWhile isWs with
            | t :: rest =>
              if terms.contains t then some (c :: r3.takeWhile isIdentChar, rest) else none
            | [] => none
          else none
        | [] => none
      else none
    | [] => none
  else none

/-- `re.findall` driver for the anchored patterns: attempts only at
line-start positions (position 0 or right after a newline), continues
after the terminator on a match. -/
def scanDeclGo (kw : List Char) (terms : List Char) : Nat → Bool → List Char → List (List Char)
  | fuel + 1, atStart, c :: cs =>
    if atStart then
      match parseDeclKw kw terms (c :: cs) with
      | some (n, rest) => n :: scanDeclGo kw terms fuel false rest
      | none => scanDeclGo kw terms fuel (c == '\n') cs
    else scanDeclGo kw terms fuel (c == '\n') cs
  | _, _, _ => []

/-- All group-1 names of an anchored declaration pattern over `text`. -/
def scanDecl (kw : List Char) (terms : List Char) (text : List Char) : List (List Char) :=
  scanDeclGo kw terms text.length true text

def kwDef : List Char := ['d', 'e', 'f']
def kwClass : List Char := ['c', 'l', 'a', 's', 's']
def kwNode : List Char := ['n', 'o', 'd', 'e']
def kwWalker : List Char := ['w', 'a', 'l', 'k', 'e', 'r']

-- ---------------------------------------------------------------------
-- File system model and `_read_text`
-- ---------------------------------------------------------------------

/-- A file system: paths to contents; `none` is an unreadable file. -/
abbrev FileSys := List Char → Option (List Char)

/-- `_read_text`: file contents, or the empty string when the open/read
raises (the function catches every exception). -/
def _read_text (fs : FileSys) (path : List Char) : List Char :=
  match fs path with
  | none => []
  | some t => t

-- ---------------------------------------------------------------------
-- `extract_symbols_and_calls`
-- ---------------------------------------------------------------------

/-- The per-file table returned by `extract_symbols_and_calls`. -/
structure SymTable where
  functions : List (List Char)
  classes : List (List Char)
  walkers : List (List Char)
  nodes : List (List Char)
  calls : List (List Char)
deriving DecidableEq

def emptySymTable : SymTable := ⟨[], [], [], [], []⟩

/-- The in-order de-duplication helper `uniq` (seen-set accumulator). -/
def uniqAux {α : Type} [DecidableEq α] (seen : List α) : List α → List α
  | [] => []
  | x :: xs => if x ∈ seen then uniqAux seen xs else x :: uniqAux (x :: seen) xs

def uniq {α : Type} [DecidableEq α] (l : List α) : List α := uniqAux [] l

/-- `c.split(".")[0]`: the text before the first dot. -/
def headSegment (c : List Char) : List Char := c.takeWhile (fun x => x != '.')

/-- `c.split(".")[-1]`: the text after the last dot. -/
def lastSegment (c : List Char) : List Char :=
  (c.reverse.takeWhile (fun x => x != '.')).reverse

def _PY_KEYWORDS : List (List Char) :=
  [ ['d','e','f'], ['c','l','a','s','s'], ['i','f'], ['f','o','r'],
    ['w','h','i','l','e'], ['r','e','t','u','r','n'], ['w','i','t','h'],
    ['a','w','a','i','t'], ['e','l','i','f'], ['e','l','s','e'],
    ['m','a','t','c','h'], ['c','a','s','e'], ['l','a','m','b','d','a'],
    ['y','i','e','l','d'], ['e','x','c','e','p','t'],
    ['f','i','n','a','l','l','y'], ['t','r','y'], ['p','r','i','n','t'] ]

/-- `extract_symbols_and_calls`: read (never raising), return the empty
table on empty text, otherwise run the five regex scans, filter calls
whose first dotted segment is a keyword, and de-duplicate each list. -/
def extract_symbols_and_calls (fs : FileSys) (path : List Char) : SymTable :=
  let text := _read_text fs path
  if text = [] then emptySymTable
  else
    { functions := uniq (scanDecl kwDef ['('] text)
      classes := uniq (scanDecl kwClass ['(', ':'] text)
      walkers := uniq (scanDecl kwWalker [lbrace] text)
      nodes := uniq (scanDecl kwNode [lbrace] text)
      calls := uniq ((scanCalls text).filter
        (fun c => !(_PY_KEYWORDS.contains (headSegment c)))) }

-- ---------------------------------------------------------------------
-- `build_ccg`
-- ---------------------------------------------------------------------

def kFunc : List Char := ['f', 'u', 'n', 'c']
def kClass : List Char := ['c', 'l', 'a', 's', 's']
def kJacNode : List Char := ['j', 'a', 'c', '_', 'n', 'o', 'd', 'e']
def kWalker : List Char := ['w', 'a', 'l', 'k', 'e', 'r']
def kFile : List Char := ['f', 'i', 'l', 'e']
def kCalls : List Char := ['C', 'A', 'L', 'L', 'S']

/-- A graph node dict: `id`, `label`, `kind`, `file`. -/
structure GNode where
  id : List Char
  label : List Char
  kind : List Char
  file : List Char
deriving DecidableEq

/-- A graph edge dict: `src`, `dst`, `type`. -/
structure GEdge where
  src : List Char
  dst : List Char
  type : List Char
deriving DecidableEq

/-- `_add_node`'s dict for a symbol: id `kind:file:name`, label
`name (file)`. -/
def mkGNode (kind file name : List Char) : GNode :=
  { id := kind ++ ':' :: file ++ ':' :: name
    label := name ++ ' ' :: '(' :: file ++ [')']
    kind := kind
    file := file }

def fileId (file : List Char) : List Char := kFile ++ ':' :: file

/-- The file node appended for every parsed file. -/
def fileGNode (file : List Char) : GNode :=
  { id := fileId file, label := file, kind := kFile, file := file }

def funcId (file name : List Char) : List Char :=
  kFunc ++ ':' :: file ++ ':' :: name

/-- A `CALLS` edge from a file node to a function node. -/
def callsEdge (srcFile dstFile name : List Char) : GEdge :=
  { src := fileId srcFile, dst := funcId dstFile name, type := kCalls }

/-- The `files` dict of `parse_sources` output: rel-path to table, in
insertion (collection) order. -/
abbrev Files := List (List Char × SymTable)

/-- The entry list `func_index[name]`: one `(file, "func")` per occurrence
of `name` in a `functions` list, in global iteration order. -/
def func_index (files : Files) (name : List Char) : List (List Char × List Char) :=
  files.flatMap fun p =>
    p.2.functions.filterMap fun fn =>
      if fn = name then some (p.1, kFunc) else none

/-- The first loop of `build_ccg`: one node per discovered symbol. -/
def symbolNodes (files : Files) : List GNode :=
  files.flatMap fun p =>
    p.2.functions.map (mkGNode kFunc p.1) ++ p.2.classes.map (mkGNode kClass p.1)
      ++ p.2.nodes.map (mkGNode kJacNode p.1) ++ p.2.walkers.map (mkGNode kWalker p.1)

/-- The body of the edge loop for one call string: same-file resolution
first, else a unique cross-file `func_index` match, else nothing. -/
def edgeForCall (files : Files) (file : List Char) (funcsHere : List (List Char))
    (call : List Char) : List GEdge :=
  let callee := lastSegment call
  if callee ∈ funcsHere then [callsEdge file file callee]
  else
    match func_index files callee with
    | [(dstFile, _)] => [callsEdge file dstFile callee]
    | _ => []

/-- The edge loop of `build_ccg`. -/
def ccgEdges (files : Files) : List GEdge :=
  files.flatMap fun p => p.2.calls.flatMap (edgeForCall files p.1 p.2.functions)

/-- Symbol nodes first, then one file node per file (source order). -/
def ccgNodes (files : Files) : List GNode :=
  symbolNodes files ++ files.map fun p => fileGNode p.1

structure CCG where
  nodes : List GNode
  edges : List GEdge
deriving DecidableEq

/-- `build_ccg`: nodes and edges, de-duplicated in order
(`uniq_dicts` compares whole dicts, i.e. whole records). -/
def build_ccg (files : Files) : CCG :=
  { nodes := uniq (ccgNodes files), edges := uniq (ccgEdges files) }

-- ---------------------------------------------------------------------
-- `defs_of`
-- ---------------------------------------------------------------------

/-- `defs_of` (parsed mode): files whose table declares the bare name as
a function, class, walker or node. -/
def defs_of (files : Files) (symbol : List Char) : List (List Char) :=
  let s := lastSegment symbol
  (files.filter fun p =>
      p.2.functions.contains s || p.2.classes.contains s
        || p.2.walkers.contains s || p.2.nodes.contains s).map
    fun p => p.1

-- ---------------------------------------------------------------------
-- `collect_source_files` over a directory-tree model of `os.walk`
-- ---------------------------------------------------------------------

mutual
/-- A directory: its name, its subdirectories, its file names, in the
order the operating system enumerates them (`os.walk` does not sort). -/
inductive FTree where
  | dir : List Char → FForest → List (List Char) → FTree
deriving DecidableEq

inductive FForest where
  | nil : FForest
  | cons : FTree → FForest → FForest
deriving DecidableEq
end

def FTree.nm : FTree → List Char
  | .dir n _ _ => n

def EXCLUDE_DIRS : List (List Char) :=
  [ ['.','g','i','t'], ['.','g','i','t','h','u','b'], ['.','g','i','t','l','a','b'],
    ['n','o','d','e','_','m','o','d','u','l','e','s'],
    ['_','_','p','y','c','a','c','h','e','_','_'],
    ['.','v','e','n','v'], ['v','e','n','v'], ['d','i','s','t'],
    ['b','u','i','l','d'], ['.','m','y','p','y','_','c','a','c','h','e'],
    ['.','p','y','t','e','s','t','_','c','a','c','h','e'],
    ['.','i','d','e','a'], ['.','v','s','c','o','d','e'] ]

mutual
/-- `os.walk` (top-down) with the in-loop pruning
`dirnames[:] = [d for d in dirnames if d not in EXCLUDE_DIRS]`:
yields `(dirpath, filenames)` frames, parent before children. -/
def walkTree : FTree → List Char → List (List Char × List (List Char))
  | .dir _ subs fs, dp => (dp, fs) :: walkForest subs dp

def walkForest : FForest → List Char → List (List Char × List (List Char))
  | .nil, _ => []
  | .cons t ts, dp =>
    (if EXCLUDE_DIRS.contains t.nm then [] else walkTree t (dp ++ '/' :: t.nm))
      ++ walkForest ts dp
end

def pythonLang : List Char := ['p','y','t','h','o','n']

/-- `SUPPORTED`: extension to language slug. -/
def SUPPORTED : List (List Char × List Char) :=
  [(['.','p','y'], pythonLang), (['.','j','a','c'], pythonLang)]

/-- Basename: what follows the last `/` (posix). -/
def basenameOf (path : List Char) : List Char :=
  (path.reverse.takeWhile (fun c => c != '/')).reverse

/-- `os.path.splitext(b)[1]` on a basename: the suffix from the last dot,
unless every character before that dot is itself a dot. -/
def splitextExtension (b : List Char) : List Char :=
  let rest := b.dropWhile (fun c => c == '.')
  if rest.contains '.' then
    '.' :: (rest.reverse.takeWhile (fun c => c != '.')).reverse
  else []

/-- `os.path.splitext(f)[1].lower()`. -/
def extOf (path : List Char) : List Char :=
  (splitextExtension (basenameOf path)).map asciiLower

/-- The body of the filename loop in `collect_source_files`: skip when an
allow-list is given and the extension is not on it, keep when the
extension is supported. -/
def keepFile (include_exts : Option (List (List Char))) (f : List Char) : Bool :=
  let ext := extOf f
  (match include_exts with
   | some exts => exts.contains ext
   | none => true)
    && (List.lookup ext SUPPORTED).isSome

/-- `collect_source_files`: walk the (already absolute) root and append
`os.path.join(dirpath, f)` for every kept filename, in walk order. -/
def collect_source_files (root : FTree) (rootPath : List Char)
    (include_exts : Option (List (List Char))) : List (List Char) :=
  (walkTree root rootPath).flatMap fun fr =>
    (fr.2.filter (keepFile include_exts)).map fun f => fr.1 ++ '/' :: f

-- ---------------------------------------------------------------------
-- `parse_file` (the tree-sitter path) and its byte cap
-- ---------------------------------------------------------------------

def MAX_FILE_BYTES : Nat := 1000000

/-- `parse_file`: `None` for unsupported extensions or a failing read;
otherwise the first `MAX_FILE_BYTES` bytes of the file together with the
language slug (the tree-sitter tree is parsed from exactly those bytes,
so only the returned source is scanned). -/
def parse_file (fs : FileSys) (path : List Char) : Option (List Char × List Char) :=
  match List.lookup (extOf path) SUPPORTED with
  | none => none
  | some lang =>
    match fs path with
    | none => none
    | some content => some (content.take MAX_FILE_BYTES, lang)

end TsParse

open TsParse

-- ---------------------------------------------------------------------
-- A lexicographic order on paths, for the ordering claim
-- ---------------------------------------------------------------------

/-- Lexicographic `≤` on strings-as-char-lists. -/
def lexLe : List Char → List Char → Bool
  | [], _ => true
  | _ :: _, [] => false
  | a :: as, b :: bs => if a < b then true else if a = b then lexLe as bs else false

/-- Whether a path sequence is sorted lexicographically. -/
def isSortedByPath : List (List Char) → Bool
  | [] => true
  | [_] => true
  | a :: b :: rest => lexLe a b && isSortedByPath (b :: rest)

mutual
/-- Modelled from the spec (amended ordering contract): each visited
directory contributes its kept files in listing order, joined onto the
directory path, and then its non-excluded subdirectories are visited
recursively in listing order — parent before children, no sorting. -/
def collectTraverseTree (exts : Option (List (List Char))) :
    FTree → List Char → List (List Char)
  | .dir _ subs fs, dp =>
    (fs.filter (keepFile exts)).map (fun f => dp ++ '/' :: f)
      ++ collectTraverseForest exts subs dp

def collectTraverseForest (exts : Option (List (List Char))) :
    FForest → List Char → List (List Char)
  | .nil, _ => []
  | .cons t ts, dp =>
    (if EXCLUDE_DIRS.contains t.nm then []
     else collectTraverseTree exts t (dp ++ '/' :: t.nm))
      ++ collectTraverseForest exts ts dp
end

-- ---------------------------------------------------------------------
-- Concrete inputs used by counterexamples and witnesses
-- ---------------------------------------------------------------------

def pathA : List Char := ['a', '.', 'p', 'y']
def pathB : List Char := ['b', '.', 'p', 'y']
def nmFoo : List Char := ['f', 'o', 'o']
def nmBar : List Char := ['b', 'a', 'r']

/-- `def foo(): pass` -/
def textA : List Char := ['d','e','f',' ','f','o','o','(',')',':',' ','p','a','s','s']

/-- `def bar(): foo()` -/
def textB : List Char := ['d','e','f',' ','b','a','r','(',')',':',' ','f','o','o','(',')']

def fsAB : FileSys := fun p =>
  if p = pathA then some textA else if p = pathB then some textB else none

/-- The parsed tables for the two-file root of the C1 scenario, merged in
collection order. -/
def parsedAB : Files :=
  [(pathA, extract_symbols_and_calls fsAB pathA),
   (pathB, extract_symbols_and_calls fsAB pathB)]

def pathN : List Char := ['n', '.', 'j', 'a', 'c']
def nmN : List Char := ['N']
def nmW : List Char := ['W']

/-- `node N {` newline `walker W {` -/
def textN : List Char :=
  ['n','o','d','e',' ','N',' ', lbrace, '\n', 'w','a','l','k','e','r',' ','W',' ', lbrace]

def fsN : FileSys := fun p => if p = pathN then some textN else none

def parsedN : Files := [(pathN, extract_symbols_and_calls fsN pathN)]

def pathP : List Char := ['p', '.', 'p', 'y']
def nmPrint : List Char := ['p', 'r', 'i', 'n', 't']

/-- `def print(): pass` -/
def textP : List Char := ['d','e','f',' ','p','r','i','n','t','(',')',':',' ','p','a','s','s']

def fsP : FileSys := fun p => if p = pathP then some textP else none

def parsedP : Files := [(pathP, extract_symbols_and_calls fsP pathP)]

def bigPath : List Char := ['g', '.', 'p', 'y']

/-- A file one byte over the cap. -/
def bigContent : List Char := List.replicate (MAX_FILE_BYTES + 1) 'a'

def bigFs : FileSys := fun p => if p = bigPath then some bigContent else none

/-- A root whose directory listing enumerates `b.py` before `a.py`. -/
def exTree : FTree := .dir ['r'] .nil [pathB, pathA]

def exRootPath : List Char := ['/', 'r']

/-- The files of the corpus that declare a function named `name` (the
claim's "files declaring h"), in corpus order. -/
def declaringFiles (files : Files) (name : List Char) : List (List Char) :=
  (files.filter fun p => p.2.functions.contains name).map fun p => p.1

def pathC : List Char := ['c', '.', 'p', 'y']

/-- `def foo(): pass` again, under a second path, for the ambiguity
scenario: both `a.py` and `c.py` declare `foo`, and `a.py` also calls
`foo` (its own declaration line matches the call pattern). -/
def fsDup : FileSys := fun p =>
  if p = pathA then some textA else if p = pathC then some textA else none

def parsedDup : Files :=
  [(pathA, extract_symbols_and_calls fsDup pathA),
   (pathC, extract_symbols_and_calls fsDup pathC)]

def pathE : List Char := ['e', '.', 'p', 'y']

/-- A file system with one empty file and one normal file. -/
def fsE : FileSys := fun p =>
  if p = pathE then some [] else if p = pathA then some textA else none

def parsedE : Files :=
  [(pathE, extract_symbols_and_calls fsE pathE),
   (pathA, extract_symbols_and_calls fsE pathA)]

/-- The character just before a scan position: the last character of the
already-scanned prefix, or the driver's carried previous character when
the prefix is empty. -/
def prevAt (prev : Option Char) (pre : List Char) : Option Char :=
  match pre.getLast? with
  | none => prev
  | some c => some c

-- =====================================================================
-- Theorems
-- =====================================================================

/-- C1 (counterexample): on the two-file root (`a.py` containing
`def foo(): pass`, `b.py` containing `def bar(): foo()`) the pipeline
emits three CALLS edges, not exactly one, and one of them does end at
`bar`'s function node — contradicting the claim's edge count and its
"no edge into bar" part. -/
theorem c1_counterexample :
    (build_ccg parsedAB).edges.length = 3
      ∧ callsEdge pathB pathB nmBar ∈ (build_ccg parsedAB).edges := by decide

/-- C1 (amended): the same root yields exactly the four claimed nodes,
but exactly three CALLS edges: `file:b.py -> func:a.py:foo` as claimed,
plus the self edges `file:a.py -> func:a.py:foo` and
`file:b.py -> func:b.py:bar`, because each `def` line itself also
matches the call pattern. -/
theorem c1_pipeline_graph :
    (build_ccg parsedAB).nodes =
        [mkGNode kFunc pathA nmFoo, mkGNode kFunc pathB nmBar,
         fileGNode pathA, fileGNode pathB]
      ∧ (build_ccg parsedAB).edges =
        [callsEdge pathA pathA nmFoo, callsEdge pathB pathB nmBar,
         callsEdge pathB pathA nmFoo] := by decide

/-- C4 (counterexample): a file whose text declares `node N {` produces a
graph node of kind `jac_node`, and no node of the built graph has kind
`node` — the claim's kind name is wrong on the code. -/
theorem c4_counterexample :
    mkGNode kJacNode pathN nmN ∈ (build_ccg parsedN).nodes
      ∧ ((build_ccg parsedN).nodes.all fun n => n.kind != kwNode) = true := by decide

/-- C10 (counterexample): `p.py` containing `def print(): pass` declares
`print`, yet its calls list is empty (the keyword filter drops `print`),
so `build_ccg` emits no self CALLS edge at all. -/
theorem c10_counterexample :
    (extract_symbols_and_calls fsP pathP).functions = [nmPrint]
      ∧ (build_ccg parsedP).edges = [] := by decide

/-- C5 (counterexample): `_read_text` — the read used by
`extract_symbols_and_calls` — returns the whole content of a file one
byte over `MAX_FILE_BYTES`; the extraction path is not capped. -/
theorem c5_counterexample :
    MAX_FILE_BYTES < (_read_text bigFs bigPath).length := by
  have h : _read_text bigFs bigPath = bigContent := by
    simp [_read_text, bigFs]
  rw [h]
  simp only [bigContent, List.length_replicate]
  omega

/-- C6 (counterexample): a root whose directory listing enumerates
`b.py` before `a.py` makes `collect_source_files` return the paths in
that unsorted order — the result is not sorted lexicographically. -/
theorem c6_counterexample :
    collect_source_files exTree exRootPath none =
        [exRootPath ++ '/' :: pathB, exRootPath ++ '/' :: pathA]
      ∧ isSortedByPath (collect_source_files exTree exRootPath none) = false := by
  decide

-- ---------------------------------------------------------------------
-- Helper lemmas about `uniq` and graph membership
-- ---------------------------------------------------------------------

theorem mem_uniqAux {α : Type} [DecidableEq α] {x : α} (l : List α) :
    ∀ seen, x ∈ uniqAux seen l ↔ x ∈ l ∧ x ∉ seen := by
  induction l with
  | nil => intro seen; simp [uniqAux]
  | cons y ys ih =>
    intro seen
    by_cases hy : y ∈ seen
    · rw [uniqAux, if_pos hy, ih seen]
      constructor
      · rintro ⟨h1, h2⟩; exact ⟨List.mem_cons_of_mem _ h1, h2⟩
      · rintro ⟨h1, h2⟩
        rcases List.mem_cons.1 h1 with rfl | h1
        · exact absurd hy h2
        · exact ⟨h1, h2⟩
    · rw [uniqAux, if_neg hy]
      constructor
      · intro h
        rcases List.mem_cons.1 h with rfl | h
        · exact ⟨List.mem_cons_self _ _, hy⟩
        · obtain ⟨h1, h2⟩ := (ih (y :: seen)).1 h
          exact ⟨List.mem_cons_of_mem _ h1, fun hx => h2 (List.mem_cons_of_mem _ hx)⟩
      · rintro ⟨h1, h2⟩
        rcases List.mem_cons.1 h1 with rfl | h1
        · exact List.mem_cons_self _ _
        · by_cases hxy : x = y
          · subst hxy; exact List.mem_cons_self _ _
          · refine List.mem_cons_of_mem _ ((ih (y :: seen)).2 ⟨h1, fun hx => ?_⟩)
            rcases List.mem_cons.1 hx with h | h
            · exact hxy h
            · exact h2 h

theorem mem_uniq {α : Type} [DecidableEq α] {x : α} {l : List α} :
    x ∈ uniq l ↔ x ∈ l := by
  rw [uniq, mem_uniqAux]
  simp

theorem mem_build_nodes {files : Files} {n : GNode} :
    n ∈ (build_ccg files).nodes ↔ n ∈ ccgNodes files := by
  rw [build_ccg]; exact mem_uniq

theorem mem_build_edges {files : Files} {e : GEdge} :
    e ∈ (build_ccg files).edges ↔ e ∈ ccgEdges files := by
  rw [build_ccg]; exact mem_uniq

theorem mem_ccgEdges {files : Files} {e : GEdge} :
    e ∈ ccgEdges files ↔
      ∃ p ∈ files, ∃ c ∈ p.2.calls, e ∈ edgeForCall files p.1 p.2.functions c := by
  simp only [ccgEdges, List.mem_flatMap]

/-- Inversion of the edge-loop body: an emitted edge is a same-file
resolution or a unique cross-file resolution. -/
theorem edgeForCall_inv {files : Files} {f : List Char} {funcs : List (List Char)}
    {c : List Char} {e : GEdge} (h : e ∈ edgeForCall files f funcs c) :
    (lastSegment c ∈ funcs ∧ e = callsEdge f f (lastSegment c))
      ∨ (lastSegment c ∉ funcs ∧ ∃ D k, func_index files (lastSegment c) = [(D, k)]
          ∧ e = callsEdge f D (lastSegment c)) := by
  unfold edgeForCall at h
  by_cases hf : lastSegment c ∈ funcs
  · rw [if_pos hf] at h
    have he := List.mem_singleton.1 h
    exact Or.inl ⟨hf, he⟩
  · rw [if_neg hf] at h
    cases hidx : func_index files (lastSegment c) with
    | nil => rw [hidx] at h; simp at h
    | cons hd tl =>
      obtain ⟨D, k⟩ := hd
      cases tl with
      | nil =>
        rw [hidx] at h
        have he := List.mem_singleton.1 h
        exact Or.inr ⟨hf, D, k, rfl, he⟩
      | cons q tl' => rw [hidx] at h; simp at h

theorem func_index_mem {files : Files} {name D k : List Char}
    (h : (D, k) ∈ func_index files name) :
    ∃ i, (D, i) ∈ files ∧ name ∈ i.functions ∧ k = kFunc := by
  simp only [func_index, List.mem_flatMap, List.mem_filterMap] at h
  obtain ⟨⟨pf, pi⟩, hp, fn, hfn, heq⟩ := h
  by_cases hname : fn = name
  · rw [if_pos hname] at heq
    have h2 := Option.some.inj heq
    have hD : pf = D := congrArg Prod.fst h2
    have hk : kFunc = k := congrArg Prod.snd h2
    subst hD; subst hname
    exact ⟨pi, hp, hfn, hk.symm⟩
  · rw [if_neg hname] at heq
    exact absurd heq (by simp)

theorem contains_iff {α : Type} [BEq α] [LawfulBEq α] {l : List α} {a : α} :
    l.contains a = true ↔ a ∈ l := by
  simp [List.contains, List.elem_iff]

/-- Splitting at a separator absent from both prefixes is injective. -/
theorem append_sep_inj : ∀ {xs xs' ys ys' : List Char},
    ':' ∉ xs → ':' ∉ xs' → xs ++ ':' :: ys = xs' ++ ':' :: ys' →
    xs = xs' ∧ ys = ys'
  | [], [], _, _, _, _, h => by simpa using h
  | [], b :: bs, _, _, _, hx', h => by
    simp only [List.nil_append, List.cons_append, List.cons.injEq] at h
    exact absurd (by rw [← h.1]; exact List.mem_cons_self _ _) hx'
  | a :: as, [], _, _, hx, _, h => by
    simp only [List.cons_append, List.nil_append, List.cons.injEq] at h
    exact absurd (by rw [h.1]; exact List.mem_cons_self _ _) hx
  | a :: as, b :: bs, ys, ys', hx, hx', h => by
    simp only [List.cons_append, List.cons.injEq] at h
    obtain ⟨rfl, h2⟩ := h
    have hxa : ':' ∉ as := fun hm => hx (List.mem_cons_of_mem _ hm)
    have hxb : ':' ∉ bs := fun hm => hx' (List.mem_cons_of_mem _ hm)
    obtain ⟨h3, h4⟩ := append_sep_inj hxa hxb h2
    exact ⟨by rw [h3], h4⟩

theorem fileId_inj {f g : List Char} (h : fileId f = fileId g) : f = g := by
  simp only [fileId, kFile, List.cons_append, List.nil_append,
    List.cons.injEq, true_and] at h
  exact h

theorem funcId_inj {f g n m : List Char} (hf : ':' ∉ f) (hg : ':' ∉ g)
    (h : funcId f n = funcId g m) : f = g ∧ n = m := by
  simp only [funcId, kFunc, List.cons_append, List.nil_append,
    List.cons.injEq, true_and] at h
  exact append_sep_inj hf hg h

theorem fileId_ne_mkGNode_id (k f g n : List Char)
    (hk : k = kFunc ∨ k = kClass ∨ k = kJacNode ∨ k = kWalker) :
    fileId f ≠ (mkGNode k g n).id := by
  rcases hk with rfl | rfl | rfl | rfl <;>
      intro h <;>
      simp only [fileId, mkGNode, kFile, kFunc, kClass, kJacNode, kWalker,
        List.cons_append, List.nil_append, List.cons.injEq] at h
  · exact absurd h.2.1 (by decide)
  · exact absurd h.1 (by decide)
  · exact absurd h.1 (by decide)
  · exact absurd h.1 (by decide)

/-- In an association list with distinct keys, a key determines its
value (Python dicts cannot repeat a key). -/
theorem assoc_unique {files : Files} (hkeys : (files.map Prod.fst).Nodup)
    {f : List Char} {i j : SymTable} (hi : (f, i) ∈ files) (hj : (f, j) ∈ files) :
    i = j := by
  induction files with
  | nil => simp at hi
  | cons p ps ih =>
    rw [List.map_cons, List.nodup_cons] at hkeys
    rcases List.mem_cons.1 hi with hip | hi'
    · rcases List.mem_cons.1 hj with hjp | hj'
      · rw [← hjp] at hip
        exact congrArg Prod.snd hip
      · exfalso
        apply hkeys.1
        rw [← hip]
        exact List.mem_map.2 ⟨(f, j), hj', rfl⟩
    · rcases List.mem_cons.1 hj with hjp | hj'
      · exfalso
        apply hkeys.1
        rw [← hjp]
        exact List.mem_map.2 ⟨(f, i), hi', rfl⟩
      · exact ih hkeys.2 hi' hj'

theorem funcNode_mem_ccgNodes {files : Files} {f : List Char} {i : SymTable}
    {nm : List Char} (hp : (f, i) ∈ files) (hnm : nm ∈ i.functions) :
    mkGNode kFunc f nm ∈ ccgNodes files := by
  refine List.mem_append_left _ (List.mem_flatMap.2 ⟨(f, i), hp, ?_⟩)
  exact List.mem_append_left _
    (List.mem_append_left _ (List.mem_append_left _ (List.mem_map_of_mem _ hnm)))

theorem fileNode_mem_ccgNodes {files : Files} {f : List Char} {i : SymTable}
    (hp : (f, i) ∈ files) : fileGNode f ∈ ccgNodes files := by
  exact List.mem_append_right _ (List.mem_map.2 ⟨(f, i), hp, rfl⟩)

theorem symbolNodes_inv {files : Files} {n : GNode} (h : n ∈ symbolNodes files) :
    ∃ p ∈ files,
      (∃ nm ∈ p.2.functions, mkGNode kFunc p.1 nm = n)
        ∨ (∃ nm ∈ p.2.classes, mkGNode kClass p.1 nm = n)
        ∨ (∃ nm ∈ p.2.nodes, mkGNode kJacNode p.1 nm = n)
        ∨ (∃ nm ∈ p.2.walkers, mkGNode kWalker p.1 nm = n) := by
  simp only [symbolNodes, List.mem_flatMap, List.mem_append, List.mem_map] at h
  obtain ⟨p, hp, h⟩ := h
  refine ⟨p, hp, ?_⟩
  rcases h with ((h | h) | h) | h
  · exact Or.inl h
  · exact Or.inr (Or.inl h)
  · exact Or.inr (Or.inr (Or.inl h))
  · exact Or.inr (Or.inr (Or.inr h))

theorem ccgNodes_inv {files : Files} {n : GNode} (h : n ∈ ccgNodes files) :
    n ∈ symbolNodes files ∨ ∃ p ∈ files, fileGNode p.1 = n := by
  rcases List.mem_append.1 h with h | h
  · exact Or.inl h
  · obtain ⟨p, hp, hn⟩ := List.mem_map.1 h
    exact Or.inr ⟨p, hp, hn⟩

/-- With duplicate-free `functions` lists (Python `uniq` output), the
occurrence list collapses to a membership test. -/
theorem filterMap_if_eq_of_nodup {v : List Char × List Char} :
    ∀ {l : List (List Char)}, l.Nodup → ∀ name : List Char,
      (l.filterMap fun fn => if fn = name then some v else none)
        = if name ∈ l then [v] else []
  | [], _, name => by simp
  | x :: xs, hnd, name => by
    simp only [List.nodup_cons] at hnd
    rw [List.filterMap_cons]
    by_cases hx : x = name
    · subst hx
      rw [if_pos rfl, filterMap_if_eq_of_nodup hnd.2 x, if_neg hnd.1,
        if_pos (List.mem_cons_self _ _)]
    · rw [if_neg hx, filterMap_if_eq_of_nodup hnd.2 name]
      by_cases hm : name ∈ xs
      · rw [if_pos hm, if_pos (List.mem_cons_of_mem _ hm)]
      · rw [if_neg hm, if_neg ?_]
        intro hc
        rcases List.mem_cons.1 hc with h | h
        · exact hx h.symm
        · exact hm h

/-- Under per-file duplicate-freedom the global function index is the
declaring-files list tagged with the `func` kind. -/
theorem func_index_eq_declaring {files : Files}
    (hnd : ∀ p ∈ files, p.2.functions.Nodup) (name : List Char) :
    func_index files name = (declaringFiles files name).map fun D => (D, kFunc) := by
  induction files with
  | nil => simp [func_index, declaringFiles]
  | cons p ps ih =>
    have hp := hnd p (List.mem_cons_self _ _)
    have hps : ∀ q ∈ ps, q.2.functions.Nodup :=
      fun q hq => hnd q (List.mem_cons_of_mem _ hq)
    simp only [func_index, List.flatMap_cons] at *
    rw [filterMap_if_eq_of_nodup hp name]
    simp only [declaringFiles, List.filter_cons]
    by_cases hm : name ∈ p.2.functions
    · rw [if_pos hm, if_pos (by simpa using contains_iff.2 hm)]
      simp only [List.map_cons, List.cons_append, List.nil_append]
      rw [ih hps]
      rfl
    · rw [if_neg hm, if_neg (by simp [contains_iff, hm])]
      simp only [List.nil_append]
      rw [ih hps]
      rfl

/-- C9: in every built graph, each edge leaves a file node (id of the
form `file:<path>`) that is present in the node list and enters a `func`
node present in the node list; no function, class, jac_node, or walker
node ever has an outbound edge. -/
theorem c9_edge_endpoints {files : Files} {e : GEdge}
    (he : e ∈ (build_ccg files).edges) :
    (∃ f, e.src = fileId f ∧ fileGNode f ∈ (build_ccg files).nodes)
      ∧ (∃ n ∈ (build_ccg files).nodes, n.kind = kFunc ∧ n.id = e.dst)
      ∧ (∀ n ∈ (build_ccg files).nodes,
          n.kind = kFunc ∨ n.kind = kClass ∨ n.kind = kJacNode ∨ n.kind = kWalker →
          e.src ≠ n.id) := by
  obtain ⟨p, hp, c, hc, hef⟩ := mem_ccgEdges.1 (mem_build_edges.1 he)
  obtain ⟨pf, pi⟩ := p
  have hsrc : e.src = fileId pf ∧ ∃ D i2, (D, i2) ∈ files
      ∧ lastSegment c ∈ i2.functions ∧ e.dst = funcId D (lastSegment c) := by
    rcases edgeForCall_inv hef with ⟨hmem, rfl⟩ | ⟨hnm, D, k, hidx, rfl⟩
    · exact ⟨rfl, pf, pi, hp, hmem, rfl⟩
    · have hDk : (D, k) ∈ func_index files (lastSegment c) := by
        rw [hidx]; exact List.mem_singleton.2 rfl
      obtain ⟨i2, hDi, hmem, _⟩ := func_index_mem hDk
      exact ⟨rfl, D, i2, hDi, hmem, rfl⟩
  obtain ⟨hs, D, i2, hDi, hmem, hd⟩ := hsrc
  refine ⟨⟨pf, hs, mem_build_nodes.2 (fileNode_mem_ccgNodes hp)⟩, ?_, ?_⟩
  · refine ⟨mkGNode kFunc D (lastSegment c),
      mem_build_nodes.2 (funcNode_mem_ccgNodes hDi hmem), rfl, ?_⟩
    rw [hd]
    rfl
  · intro n hn hkind
    rw [hs]
    rcases ccgNodes_inv (mem_build_nodes.1 hn) with hsym | ⟨q, hq, hfn⟩
    · obtain ⟨q, hq2, hcase⟩ := symbolNodes_inv hsym
      rcases hcase with ⟨nm, _, rfl⟩ | ⟨nm, _, rfl⟩ | ⟨nm, _, rfl⟩ | ⟨nm, _, rfl⟩
      · exact fileId_ne_mkGNode_id _ _ _ _ (Or.inl rfl)
      · exact fileId_ne_mkGNode_id _ _ _ _ (Or.inr (Or.inl rfl))
      · exact fileId_ne_mkGNode_id _ _ _ _ (Or.inr (Or.inr (Or.inl rfl)))
      · exact fileId_ne_mkGNode_id _ _ _ _ (Or.inr (Or.inr (Or.inr rfl)))
    · exfalso
      have hk : n.kind = kFile := by rw [← hfn]; rfl
      rcases hkind with h | h | h | h <;> rw [hk] at h <;> exact absurd h (by decide)

/-- C9 (witness): a concrete edge of the two-file example graph, with
its source file node present. -/
theorem c9_witness :
    callsEdge pathB pathA nmFoo ∈ (build_ccg parsedAB).edges
      ∧ fileGNode pathB ∈ (build_ccg parsedAB).nodes := by
  have he : callsEdge pathB pathA nmFoo ∈ (build_ccg parsedAB).edges := by decide
  obtain ⟨f, hsrc, hmem⟩ := (@c9_edge_endpoints parsedAB (callsEdge pathB pathA nmFoo) he).1
  have hsrc' : fileId pathB = fileId f := hsrc
  have hf : pathB = f := fileId_inj hsrc'
  rw [← hf] at hmem
  exact ⟨he, hmem⟩

/-- C8: `defs_of` returns exactly the files whose table declares the
bare (last-segment) form of the symbol as a function, class, walker or
node; on an empty (or missing) `files` mapping it returns `[]`. -/
theorem c8_defs_of_spec (files : Files) (s g : List Char) :
    (g ∈ defs_of files s ↔
      ∃ i, (g, i) ∈ files ∧
        (lastSegment s ∈ i.functions ∨ lastSegment s ∈ i.classes
          ∨ lastSegment s ∈ i.walkers ∨ lastSegment s ∈ i.nodes))
      ∧ defs_of [] s = [] := by
  constructor
  · constructor
    · intro h
      simp only [defs_of, List.mem_map, List.mem_filter] at h
      obtain ⟨p, ⟨hp, hpred⟩, hg⟩ := h
      refine ⟨p.2, ?_, ?_⟩
      · rw [← hg]
        simpa using hp
      · simp only [Bool.or_eq_true, contains_iff] at hpred
        tauto
    · rintro ⟨i, hgi, hmem⟩
      simp only [defs_of, List.mem_map]
      refine ⟨(g, i), List.mem_filter.2 ⟨hgi, ?_⟩, rfl⟩
      simp only [Bool.or_eq_true, contains_iff]
      tauto
  · rfl

/-- C2: a call whose last segment is not locally declared resolves to
the unique declaring file when there is exactly one, and contributes no
edge when there are zero or several (per-file `functions` lists are
duplicate-free, as the extraction pipeline guarantees via `uniq`). -/
theorem c2_cross_file_resolution {files : Files} {f : List Char} {i : SymTable}
    {call : List Char} (hnd : ∀ p ∈ files, p.2.functions.Nodup)
    (hfi : (f, i) ∈ files) (hc : call ∈ i.calls)
    (hloc : lastSegment call ∉ i.functions) :
    (∀ D, declaringFiles files (lastSegment call) = [D] →
        callsEdge f D (lastSegment call) ∈ (build_ccg files).edges)
      ∧ ((declaringFiles files (lastSegment call)).length ≠ 1 →
          edgeForCall files f i.functions call = []) := by
  have hidx := func_index_eq_declaring hnd (lastSegment call)
  constructor
  · intro D hD
    rw [hD] at hidx
    simp only [List.map_cons, List.map_nil] at hidx
    apply mem_build_edges.2
    apply mem_ccgEdges.2
    refine ⟨(f, i), hfi, call, hc, ?_⟩
    unfold edgeForCall
    rw [if_neg hloc, hidx]
    exact List.mem_singleton.2 rfl
  · intro hlen
    unfold edgeForCall
    rw [if_neg hloc, hidx]
    cases hdecl : declaringFiles files (lastSegment call) with
    | nil => rfl
    | cons D tl =>
      cases tl with
      | nil =>
        exfalso
        apply hlen
        rw [hdecl]
        rfl
      | cons q tl' => rfl

/-- C2 (witness): in the two-file example, `b.py`'s call `foo` is not
local and exactly `a.py` declares `foo`, so the cross-file edge is in
the graph. -/
theorem c2_witness :
    callsEdge pathB pathA nmFoo ∈ (build_ccg parsedAB).edges := by
  have h := @c2_cross_file_resolution parsedAB pathB
    (extract_symbols_and_calls fsAB pathB) nmFoo
    (by decide) (by decide) (by decide) (by decide)
  exact h.1 pathA (by decide)

/-- C3: when a file declares the callee itself, the emitted edge goes to
its own function node, and no edge to another (colon-free-named) file's
node of the same callee exists with this source. -/
theorem c3_same_file_wins {files : Files} {f : List Char} {i : SymTable}
    {call B : List Char}
    (hkeys : (files.map Prod.fst).Nodup) (hcol : ∀ p ∈ files, ':' ∉ p.1)
    (hfi : (f, i) ∈ files) (hc : call ∈ i.calls)
    (hloc : lastSegment call ∈ i.functions)
    (hB : B ≠ f) (hBcol : ':' ∉ B) :
    callsEdge f f (lastSegment call) ∈ (build_ccg files).edges
      ∧ callsEdge f B (lastSegment call) ∉ (build_ccg files).edges := by
  constructor
  · apply mem_build_edges.2
    apply mem_ccgEdges.2
    refine ⟨(f, i), hfi, call, hc, ?_⟩
    unfold edgeForCall
    rw [if_pos hloc]
    exact List.mem_singleton.2 rfl
  · intro hmem
    obtain ⟨q, hq, c', hc', hef⟩ := mem_ccgEdges.1 (mem_build_edges.1 hmem)
    obtain ⟨qf, qi⟩ := q
    have hfcol : ':' ∉ f := hcol _ hfi
    rcases edgeForCall_inv hef with ⟨hmem2, heq⟩ | ⟨hnm, D, k, hidx, heq⟩
    · have hsrc : fileId f = fileId qf := congrArg GEdge.src heq
      have hqf : f = qf := fileId_inj hsrc
      subst hqf
      have hdst : funcId B (lastSegment call) = funcId f (lastSegment c') :=
        congrArg GEdge.dst heq
      obtain ⟨hBf, _⟩ := funcId_inj hBcol hfcol hdst
      exact hB hBf
    · have hsrc : fileId f = fileId qf := congrArg GEdge.src heq
      have hqf : f = qf := fileId_inj hsrc
      subst hqf
      have hqi : qi = i := assoc_unique hkeys hq hfi
      have hDk : (D, k) ∈ func_index files (lastSegment c') := by
        rw [hidx]; exact List.mem_singleton.2 rfl
      obtain ⟨i2, hDi, hmem3, _⟩ := func_index_mem hDk
      have hDcol : ':' ∉ D := hcol _ hDi
      have hdst : funcId B (lastSegment call) = funcId D (lastSegment c') :=
        congrArg GEdge.dst heq
      obtain ⟨hBD, hss⟩ := funcId_inj hBcol hDcol hdst
      rw [hqi] at hnm
      rw [← hss] at hnm
      exact hnm hloc

/-- C3 (witness): `a.py` and `c.py` both declare `foo`; `a.py` calls
`foo` and resolves to itself, never to `c.py`. -/
theorem c3_witness :
    callsEdge pathA pathA nmFoo ∈ (build_ccg parsedDup).edges
      ∧ ((build_ccg parsedDup).edges.contains (callsEdge pathA pathC nmFoo)) = false := by
  have h := @c3_same_file_wins parsedDup pathA
    (extract_symbols_and_calls fsDup pathA) nmFoo pathC
    (by decide) (by decide) (by decide) (by decide) (by decide)
    (by decide) (by decide)
  refine ⟨h.1, ?_⟩
  by_contra hc
  rw [Bool.not_eq_false] at hc
  exact h.2 (contains_iff.1 hc)

/-- C7: extraction is total — an unreadable or empty file yields the
empty table — and such a file contributes exactly its own file node and
no edges (no edge leaves it and no edge enters any node of its file). -/
theorem c7_empty_or_unreadable {fs : FileSys} {p : List Char} {files : Files}
    (hread : fs p = none ∨ fs p = some [])
    (hkeys : (files.map Prod.fst).Nodup) (hcol : ∀ q ∈ files, ':' ∉ q.1)
    (hp : (p, extract_symbols_and_calls fs p) ∈ files) :
    extract_symbols_and_calls fs p = emptySymTable
      ∧ fileGNode p ∈ (build_ccg files).nodes
      ∧ (∀ n ∈ (build_ccg files).nodes, n.file = p → n = fileGNode p)
      ∧ (∀ e ∈ (build_ccg files).edges,
          e.src ≠ fileId p ∧ ∀ m, e.dst ≠ funcId p m) := by
  have hempty : extract_symbols_and_calls fs p = emptySymTable := by
    unfold extract_symbols_and_calls _read_text
    rcases hread with h | h <;> rw [h] <;> rfl
  rw [hempty] at hp
  have hpcol : ':' ∉ p := hcol _ hp
  refine ⟨hempty, mem_build_nodes.2 (fileNode_mem_ccgNodes hp), ?_, ?_⟩
  · intro n hn hfile
    rcases ccgNodes_inv (mem_build_nodes.1 hn) with hsym | ⟨q, hq, hfn⟩
    · exfalso
      obtain ⟨q, hq, hcase⟩ := symbolNodes_inv hsym
      obtain ⟨qf, qi⟩ := q
      rcases hcase with ⟨nm, hnm, hrfl⟩ | ⟨nm, hnm, hrfl⟩ | ⟨nm, hnm, hrfl⟩ | ⟨nm, hnm, hrfl⟩ <;>
          rw [← hrfl] at hfile <;>
          · have hqf : qf = p := hfile
            subst hqf
            have hqi : qi = emptySymTable := assoc_unique hkeys hq hp
            rw [hqi] at hnm
            simp [emptySymTable] at hnm
    · have hqp : q.1 = p := by rw [← hfn] at hfile; exact hfile
      rw [← hfn, hqp]
  · intro e he2
    obtain ⟨q, hq, c', hc', hef⟩ := mem_ccgEdges.1 (mem_build_edges.1 he2)
    obtain ⟨qf, qi⟩ := q
    have hqfp : qf = p → False := by
      intro hqp
      subst hqp
      have hqi : qi = emptySymTable := assoc_unique hkeys hq hp
      rw [hqi] at hc'
      simp [emptySymTable] at hc'
    constructor
    · rcases edgeForCall_inv hef with ⟨_, heq⟩ | ⟨_, D, k, _, heq⟩ <;>
        · rw [heq]
          intro hsrc
          exact hqfp (fileId_inj hsrc)
    · intro m
      rcases edgeForCall_inv hef with ⟨hmem2, heq⟩ | ⟨hnm2, D, k, hidx, heq⟩
      · rw [heq]
        intro hdst
        obtain ⟨hqp, _⟩ := funcId_inj (hcol _ hq) hpcol hdst
        exact hqfp hqp
      · rw [heq]
        intro hdst
        have hDk : (D, k) ∈ func_index files (lastSegment c') := by
          rw [hidx]; exact List.mem_singleton.2 rfl
        obtain ⟨i2, hDi, hmem3, _⟩ := func_index_mem hDk
        obtain ⟨hDp, _⟩ := funcId_inj (hcol _ hDi) hpcol hdst
        subst hDp
        have hi2 : i2 = emptySymTable := assoc_unique hkeys hDi hp
        rw [hi2] at hmem3
        simp [emptySymTable] at hmem3

/-- C7 (witness): a two-file system whose `e.py` is empty: the empty
table and the lone file node, concretely. -/
theorem c7_witness :
    extract_symbols_and_calls fsE pathE = emptySymTable
      ∧ fileGNode pathE ∈ (build_ccg parsedE).nodes := by
  have h := @c7_empty_or_unreadable fsE pathE parsedE (Or.inr (by decide))
    (by decide) (by decide) (by decide)
  exact ⟨h.1, h.2.1⟩

/-- C4 (amended): every `node`-pattern declaration appears in the graph
with kind `jac_node` (not `node`), every `walker`-pattern declaration
with kind `walker`; kind `class` only ever arises from `class`
declarations, and the only kinds in a built graph are `func`, `class`,
`jac_node`, `walker` and `file`. -/
theorem c4_domain_kinds {files : Files} {f : List Char} {i : SymTable}
    (hfi : (f, i) ∈ files) :
    (∀ nd ∈ i.nodes, mkGNode kJacNode f nd ∈ (build_ccg files).nodes)
      ∧ (∀ wk ∈ i.walkers, mkGNode kWalker f wk ∈ (build_ccg files).nodes)
      ∧ (∀ n ∈ (build_ccg files).nodes, n.kind = kClass →
          ∃ p ∈ files, ∃ c ∈ p.2.classes, mkGNode kClass p.1 c = n)
      ∧ (∀ n ∈ (build_ccg files).nodes,
          n.kind = kFunc ∨ n.kind = kClass ∨ n.kind = kJacNode
            ∨ n.kind = kWalker ∨ n.kind = kFile) := by
  refine ⟨?_, ?_, ?_, ?_⟩
  · intro nd hnd
    apply mem_build_nodes.2
    refine List.mem_append_left _ (List.mem_flatMap.2 ⟨(f, i), hfi, ?_⟩)
    exact List.mem_append_left _
      (List.mem_append_right _ (List.mem_map_of_mem _ hnd))
  · intro wk hwk
    apply mem_build_nodes.2
    refine List.mem_append_left _ (List.mem_flatMap.2 ⟨(f, i), hfi, ?_⟩)
    exact List.mem_append_right _ (List.mem_map_of_mem _ hwk)
  · intro n hn hkind
    rcases ccgNodes_inv (mem_build_nodes.1 hn) with hsym | ⟨q, hq, hfn⟩
    · obtain ⟨q, hq, hcase⟩ := symbolNodes_inv hsym
      rcases hcase with ⟨nm, hnm, hrfl⟩ | ⟨nm, hnm, hrfl⟩ | ⟨nm, hnm, hrfl⟩ | ⟨nm, hnm, hrfl⟩
      · exfalso
        have hk : n.kind = kFunc := by rw [← hrfl]; rfl
        rw [hk] at hkind
        exact absurd hkind (by decide)
      · exact ⟨q, hq, nm, hnm, hrfl⟩
      · exfalso
        have hk : n.kind = kJacNode := by rw [← hrfl]; rfl
        rw [hk] at hkind
        exact absurd hkind (by decide)
      · exfalso
        have hk : n.kind = kWalker := by rw [← hrfl]; rfl
        rw [hk] at hkind
        exact absurd hkind (by decide)
    · exfalso
      have hk : n.kind = kFile := by rw [← hfn]; rfl
      rw [hk] at hkind
      exact absurd hkind (by decide)
  · intro n hn
    rcases ccgNodes_inv (mem_build_nodes.1 hn) with hsym | ⟨q, hq, hfn⟩
    · obtain ⟨q, hq, hcase⟩ := symbolNodes_inv hsym
      rcases hcase with ⟨nm, hnm, hrfl⟩ | ⟨nm, hnm, hrfl⟩ | ⟨nm, hnm, hrfl⟩ | ⟨nm, hnm, hrfl⟩ <;>
        rw [← hrfl]
      · exact Or.inl rfl
      · exact Or.inr (Or.inl rfl)
      · exact Or.inr (Or.inr (Or.inl rfl))
      · exact Or.inr (Or.inr (Or.inr (Or.inl rfl)))
    · rw [← hfn]
      exact Or.inr (Or.inr (Or.inr (Or.inr rfl)))

/-- C4 (witness): the `node N`/`walker W` file yields the two
domain-kind nodes concretely. -/
theorem c4_witness :
    mkGNode kJacNode pathN nmN ∈ (build_ccg parsedN).nodes
      ∧ mkGNode kWalker pathN nmW ∈ (build_ccg parsedN).nodes := by
  have h := @c4_domain_kinds parsedN pathN
    (extract_symbols_and_calls fsN pathN) (by decide)
  exact ⟨h.1 nmN (by decide), h.2.1 nmW (by decide)⟩

/-- C5 (amended): the tree-sitter path `parse_file` reads at most
`MAX_FILE_BYTES` bytes of a supported file — an oversized file is
truncated, not rejected — while the extraction path `_read_text` reads
the whole content with no cap. -/
theorem c5_parse_file_cap {fs : FileSys} {path content lang : List Char}
    (hc : fs path = some content)
    (hext : List.lookup (extOf path) SUPPORTED = some lang) :
    parse_file fs path = some (content.take MAX_FILE_BYTES, lang)
      ∧ (content.take MAX_FILE_BYTES).length ≤ MAX_FILE_BYTES
      ∧ _read_text fs path = content := by
  refine ⟨?_, List.length_take_le _ _, ?_⟩
  · unfold parse_file
    rw [hext, hc]
  · unfold _read_text
    rw [hc]

/-- C5 (witness): the over-cap file is truncated by `parse_file` and
returned whole by `_read_text`. -/
theorem c5_witness :
    parse_file bigFs bigPath = some (bigContent.take MAX_FILE_BYTES, pythonLang)
      ∧ _read_text bigFs bigPath = bigContent := by
  have h := @c5_parse_file_cap bigFs bigPath bigContent pythonLang
    (by simp [bigFs]) (by decide)
  exact ⟨h.1, h.2.2⟩

mutual
/-- The walk-then-filter pipeline of `collect_source_files`, fused. -/
theorem collect_eq_traverse (exts : Option (List (List Char))) :
    ∀ (t : FTree) (dp : List Char),
      (walkTree t dp).flatMap
          (fun fr => (fr.2.filter (keepFile exts)).map fun f => fr.1 ++ '/' :: f)
        = collectTraverseTree exts t dp
  | .dir nm subs fs, dp => by
    rw [walkTree, collectTraverseTree, List.flatMap_cons,
      collect_forest_eq exts subs dp]

theorem collect_forest_eq (exts : Option (List (List Char))) :
    ∀ (ts : FForest) (dp : List Char),
      (walkForest ts dp).flatMap
          (fun fr => (fr.2.filter (keepFile exts)).map fun f => fr.1 ++ '/' :: f)
        = collectTraverseForest exts ts dp
  | .nil, dp => by rw [walkForest, collectTraverseForest]; rfl
  | .cons t ts, dp => by
    rw [walkForest, collectTraverseForest, List.flatMap_append,
      collect_forest_eq exts ts dp]
    by_cases h : EXCLUDE_DIRS.contains t.nm
    · rw [if_pos h, if_pos h]
      rfl
    · rw [if_neg h, if_neg h, collect_eq_traverse exts t (dp ++ '/' :: t.nm)]
end

/-- C6 (amended): `collect_source_files` returns the kept paths in
`os.walk` traversal order — each directory's files in listing order,
parent before its (non-excluded) subdirectories, no sorting applied.
The order is deterministic only relative to the listing order the
operating system provides. -/
theorem c6_traversal_order (root : FTree) (rootPath : List Char)
    (exts : Option (List (List Char))) :
    collect_source_files root rootPath exts
      = collectTraverseTree exts root rootPath := by
  unfold collect_source_files
  exact collect_eq_traverse exts root rootPath

-- ---------------------------------------------------------------------
-- Character-class facts and scanner inversions (toward C10)
-- ---------------------------------------------------------------------

theorem isWs_cases {c : Char} (h : isWs c = true) :
    c = ' ' ∨ c = '\t' ∨ c = '\n' ∨ c = '\x0d' ∨ c = '\x0b' ∨ c = '\x0c' := by
  simp only [isWs, Bool.or_eq_true, beq_iff_eq] at h
  tauto

theorem ws_not_identStart {c : Char} (h : isWs c = true) : isIdentStart c = false := by
  rcases isWs_cases h with rfl | rfl | rfl | rfl | rfl | rfl <;> decide

theorem ws_not_identChar {c : Char} (h : isWs c = true) : isIdentChar c = false := by
  rcases isWs_cases h with rfl | rfl | rfl | rfl | rfl | rfl <;> decide

theorem ws_ne_dot {c : Char} (h : isWs c = true) : c ≠ '.' := by
  rcases isWs_cases h with rfl | rfl | rfl | rfl | rfl | rfl <;> decide

theorem ws_lookOk {c : Char} (h : isWs c = true) : lookOk (some c) = true := by
  simp only [lookOk, Bool.not_eq_true', Bool.or_eq_false_iff]
  refine ⟨ws_not_identChar h, ?_⟩
  simpa using ws_ne_dot h

theorem identStart_identChar {c : Char} (h : isIdentStart c = true) :
    isIdentChar c = true := by
  simp [isIdentChar, h]

theorem identStart_not_ws {c : Char} (h : isIdentStart c = true) : isWs c = false := by
  by_contra hc
  rw [Bool.not_eq_false] at hc
  rw [ws_not_identStart hc] at h
  exact absurd h (by decide)

theorem identStart_ne_lparen {c : Char} (h : isIdentStart c = true) : c ≠ '(' := by
  intro hc
  subst hc
  exact absurd h (by decide)

theorem name_char_lookFail {c : Char} (h : isIdentChar c = true ∨ c = '.') :
    lookOk (some c) = false := by
  rcases h with h | rfl
  · simp [lookOk, h]
  · decide

theorem finishCall_inv {acc rest n r : List Char}
    (h : finishCall acc rest = some (n, r)) :
    n = acc ∧ ∃ w, rest = w ++ '(' :: r ∧ ∀ c ∈ w, isWs c = true := by
  unfold finishCall at h
  split at h
  next c r' heq =>
    split at h
    next hc =>
      subst hc
      injection h with h1
      rw [Prod.mk.injEq] at h1
      obtain ⟨h1, h2⟩ := h1
      subst h1
      subst h2
      refine ⟨rfl, rest.takeWhile isWs, ?_, fun c hc => List.mem_takeWhile_imp hc⟩
      rw [← heq]
      exact (List.takeWhile_append_dropWhile _ _).symm
    next hc => exact absurd h (by simp)
  next heq => exact absurd h (by simp)

theorem parseDots_inv : ∀ (fuel : Nat) (acc l n r : List Char),
    parseDots fuel acc l = some (n, r) →
    ∃ mid w, n = acc ++ mid ∧ l = mid ++ w ++ '(' :: r
      ∧ (∀ c ∈ mid, isIdentChar c = true ∨ c = '.')
      ∧ (∀ c ∈ w, isWs c = true)
  | 0, acc, l, n, r, h => by
    replace h : finishCall acc l = some (n, r) := h
    obtain ⟨h1, w, h2, h3⟩ := finishCall_inv h
    exact ⟨[], w, by simp [h1], by simpa using h2, by simp, h3⟩
  | fuel + 1, acc, l, n, r, h => by
    match l with
    | [] =>
      replace h : finishCall acc [] = some (n, r) := h
      obtain ⟨h1, w, h2, h3⟩ := finishCall_inv h
      exact ⟨[], w, by simp [h1], by simpa using h2, by simp, h3⟩
    | [c1] =>
      replace h : finishCall acc [c1] = some (n, r) := h
      obtain ⟨h1, w, h2, h3⟩ := finishCall_inv h
      exact ⟨[], w, by simp [h1], by simpa using h2, by simp, h3⟩
    | c1 :: d :: r2 =>
      replace h :
          (if c1 = '.' && isIdentStart d then
            parseDots fuel (acc ++ c1 :: d :: r2.takeWhile isIdentChar)
              (r2.dropWhile isIdentChar)
          else finishCall acc (c1 :: d :: r2)) = some (n, r) := h
      by_cases hcond : (c1 = '.' && isIdentStart d) = true
      · rw [if_pos hcond] at h
        rw [Bool.and_eq_true, decide_eq_true_eq] at hcond
        obtain ⟨hc1, hd⟩ := hcond
        obtain ⟨mid, w, h1, h2, h3, h4⟩ :=
          parseDots_inv fuel (acc ++ c1 :: d :: r2.takeWhile isIdentChar)
            (r2.dropWhile isIdentChar) n r h
        refine ⟨c1 :: d :: r2.takeWhile isIdentChar ++ mid, w, ?_, ?_, ?_, h4⟩
        · rw [h1]
          simp [List.append_assoc]
        · have hr2 : r2 = r2.takeWhile isIdentChar ++ r2.dropWhile isIdentChar :=
            (List.takeWhile_append_dropWhile _ _).symm
          conv_lhs => rw [hr2]
          rw [h2]
          simp [List.append_assoc]
        · intro c hc
          rcases List.mem_cons.1 hc with rfl | hc
          · exact Or.inr hc1
          rcases List.mem_cons.1 hc with rfl | hc
          · exact Or.inl (identStart_identChar hd)
          rcases List.mem_append.1 hc with hc | hc
          · exact Or.inl (List.mem_takeWhile_imp hc)
          · exact h3 c hc
      · rw [if_neg hcond] at h
        obtain ⟨h1, w, h2, h3⟩ := finishCall_inv h
        exact ⟨[], w, by simp [h1], by simpa using h2, by simp, h3⟩

theorem parseCall_inv {l n r : List Char} (h : parseCall l = some (n, r)) :
    ∃ c0 nr w, n = c0 :: nr ∧ isIdentStart c0 = true
      ∧ l = n ++ w ++ '(' :: r
      ∧ (∀ c ∈ n, isIdentChar c = true ∨ c = '.')
      ∧ (∀ c ∈ w, isWs c = true) := by
  match l with
  | [] => rw [parseCall] at h; exact absurd h (by simp)
  | c :: cs =>
    rw [parseCall] at h
    by_cases hc : isIdentStart c = true
    · rw [if_pos hc] at h
      obtain ⟨mid, w, h1, h2, h3, h4⟩ := parseDots_inv _ _ _ _ _ h
      refine ⟨c, cs.takeWhile isIdentChar ++ mid, w, by simpa using h1, hc, ?_, ?_, h4⟩
      · have hcs : cs = cs.takeWhile isIdentChar ++ cs.dropWhile isIdentChar :=
          (List.takeWhile_append_dropWhile _ _).symm
        rw [h1]
        conv_lhs => rw [hcs]
        rw [h2]
        simp [List.append_assoc]
      · intro x hx
        rw [h1] at hx
        rcases List.mem_cons.1 hx with rfl | hx
        · exact Or.inl (identStart_identChar hc)
        rcases List.mem_append.1 hx with hx | hx
        · exact Or.inl (List.mem_takeWhile_imp hx)
        · exact h3 x hx
    · rw [if_neg hc] at h
      exact absurd h (by simp)

theorem takeWhile_append_of {p : Char → Bool} {xs ys : List Char}
    (hxs : ∀ c ∈ xs, p c = true)
    (hys : ∀ y ys', ys = y :: ys' → p y = false) :
    (xs ++ ys).takeWhile p = xs ∧ (xs ++ ys).dropWhile p = ys := by
  induction xs with
  | nil =>
    cases ys with
    | nil => simp
    | cons y ys' =>
      simp only [List.nil_append, List.takeWhile_cons, List.dropWhile_cons,
        hys y ys' rfl]
      simp
  | cons x xs ih =>
    have hx : p x = true := hxs x (List.mem_cons_self _ _)
    have hxs' : ∀ c ∈ xs, p c = true := fun c hc => hxs c (List.mem_cons_of_mem _ hc)
    obtain ⟨h1, h2⟩ := ih hxs'
    simp only [List.cons_append, List.takeWhile_cons, List.dropWhile_cons, hx]
    simp [h1, h2]

theorem getLast?_cons_isSome : ∀ (q : Char) (qs : List Char),
    ∃ x, (q :: qs).getLast? = some x
  | q, [] => ⟨q, rfl⟩
  | q, q' :: qs => by
    rw [List.getLast?_cons_cons]
    exact getLast?_cons_isSome q' qs

theorem prevAt_cons (prev : Option Char) (p0 : Char) (pre' : List Char) :
    prevAt prev (p0 :: pre') = prevAt (some p0) pre' := by
  cases pre' with
  | nil => rfl
  | cons q qs =>
    unfold prevAt
    rw [List.getLast?_cons_cons]
    obtain ⟨x, hx⟩ := getLast?_cons_isSome q qs
    rw [hx]

theorem prevAt_append_cons (prev : Option Char) (xs : List Char) (y : Char)
    (ys : List Char) :
    prevAt prev (xs ++ y :: ys) = prevAt (some y) ys := by
  unfold prevAt
  rw [List.getLast?_append_cons]
  cases ys with
  | nil => rfl
  | cons q qs =>
    rw [List.getLast?_cons_cons]
    obtain ⟨x, hx⟩ := getLast?_cons_isSome q qs
    rw [hx]

theorem lookOk_prevAt_ws {c : Char} {tl : List Char} (hc : isWs c = true)
    (htl : ∀ x ∈ tl, isWs x = true) :
    lookOk (prevAt (some c) tl) = true := by
  unfold prevAt
  cases hg : tl.getLast? with
  | none => exact ws_lookOk hc
  | some x =>
    have hx : x ∈ tl := List.mem_of_mem_getLast? (by rw [hg]; rfl)
    exact ws_lookOk (htl x hx)

theorem parseDots_eq_finishCall {fuel : Nat} {acc l : List Char}
    (hl : ∀ d r2, l = '.' :: d :: r2 → False) :
    parseDots fuel acc l = finishCall acc l := by
  cases fuel with
  | zero => rfl
  | succ fuel =>
    cases l with
    | nil => rfl
    | cons c1 l1 =>
      cases l1 with
      | nil => rfl
      | cons d r2 =>
        have hc1 : c1 ≠ '.' := fun hc => hl d r2 (by rw [hc])
        show (if c1 = '.' && isIdentStart d then
            parseDots fuel (acc ++ c1 :: d :: r2.takeWhile isIdentChar)
              (r2.dropWhile isIdentChar)
          else finishCall acc (c1 :: d :: r2)) = _
        rw [if_neg]
        simp [hc1]

theorem finishCall_ws_lparen {acc w3 r : List Char}
    (hw3 : ∀ c ∈ w3, isWs c = true) :
    finishCall acc (w3 ++ '(' :: r) = some (acc, r) := by
  have hdw : (w3 ++ '(' :: r).dropWhile isWs = '(' :: r :=
    (takeWhile_append_of hw3 (fun y ys' hy => by
      have : y = '(' := by
        have := congrArg (fun l => l.head?) hy
        simpa using this.symm
      rw [this]; decide)).2
  unfold finishCall
  rw [hdw]
  simp

/-- Computation of a `_CALL_RE` match attempt right at a declared
identifier: the identifier, trailing whitespace and the `(` are
consumed. -/
theorem parseCall_at_decl {c0 : Char} {nr w3 r : List Char}
    (hc0 : isIdentStart c0 = true) (hnr : ∀ c ∈ nr, isIdentChar c = true)
    (hw3 : ∀ c ∈ w3, isWs c = true) :
    parseCall (c0 :: (nr ++ (w3 ++ '(' :: r))) = some (c0 :: nr, r) := by
  have hhd : ∀ y ys', w3 ++ '(' :: r = y :: ys' → isIdentChar y = false := by
    intro y ys' hy
    cases w3 with
    | nil =>
      simp only [List.nil_append, List.cons.injEq] at hy
      rw [← hy.1]
      decide
    | cons w0 w3' =>
      simp only [List.cons_append, List.cons.injEq] at hy
      rw [← hy.1]
      exact ws_not_identChar (hw3 w0 (List.mem_cons_self _ _))
  obtain ⟨htw, hdw⟩ := takeWhile_append_of hnr hhd
  show (if isIdentStart c0 then
      parseDots (nr ++ (w3 ++ '(' :: r)).length
        (c0 :: (nr ++ (w3 ++ '(' :: r)).takeWhile isIdentChar)
        ((nr ++ (w3 ++ '(' :: r)).dropWhile isIdentChar)
    else none) = some (c0 :: nr, r)
  rw [if_pos hc0]
  rw [htw, hdw]
  rw [parseDots_eq_finishCall]
  · exact finishCall_ws_lparen hw3
  · intro d r2 hd
    cases w3 with
    | nil =>
      simp only [List.nil_append, List.cons.injEq] at hd
      exact absurd hd.1.symm (by decide)
    | cons w0 w3' =>
      simp only [List.cons_append, List.cons.injEq] at hd
      exact ws_ne_dot (hw3 w0 (List.mem_cons_self _ _)) hd.1

/-- Completeness of the call-scan driver: a match attempt that succeeds
at a position whose look-behind is satisfied always contributes its name
to the scan — an earlier non-overlapping match cannot consume past such
a position, because the character before it would then be a name
character (contradicting the look-behind), whitespace or `(` of that
match (contradicting that an identifier starts here). -/
theorem scanCallsGo_complete :
    ∀ (fuel : Nat) (prev : Option Char) (l pre suf n r : List Char),
      l.length ≤ fuel → l = pre ++ suf →
      lookOk (prevAt prev pre) = true →
      parseCall suf = some (n, r) →
      n ∈ scanCallsGo fuel prev l := by
  intro fuel
  induction fuel with
  | zero =>
    intro prev l pre suf n r hlen hsplit hlook hparse
    obtain ⟨c0, nr, w, hn, hc0, hsuf, hnchars, hwchars⟩ := parseCall_inv hparse
    subst hsplit
    rw [hsuf, hn] at hlen
    simp only [List.length_append, List.length_cons] at hlen
    omega
  | succ fuel ih =>
    intro prev l pre suf n r hlen hsplit hlook hparse
    obtain ⟨c0, nr, w, hn, hc0, hsuf, hnchars, hwchars⟩ := parseCall_inv hparse
    have hsufc : suf = c0 :: (nr ++ (w ++ '(' :: r)) := by
      rw [hsuf, hn]
      simp
    cases pre with
    | nil =>
      rw [List.nil_append] at hsplit
      subst hsplit
      rw [hsufc]
      show n ∈ (if lookOk prev then
          match parseCall (c0 :: (nr ++ (w ++ '(' :: r))) with
          | some (nn, rest) => nn :: scanCallsGo fuel (some '(') rest
          | none => scanCallsGo fuel (some c0) (nr ++ (w ++ '(' :: r))
        else scanCallsGo fuel (some c0) (nr ++ (w ++ '(' :: r)))
      have hlook' : lookOk prev = true := hlook
      rw [if_pos hlook', ← hsufc, hparse]
      exact List.mem_cons_self _ _
    | cons p0 pre' =>
      subst hsplit
      rw [List.cons_append]
      show n ∈ (if lookOk prev then
          match parseCall (p0 :: (pre' ++ suf)) with
          | some (nn, rest) => nn :: scanCallsGo fuel (some '(') rest
          | none => scanCallsGo fuel (some p0) (pre' ++ suf)
        else scanCallsGo fuel (some p0) (pre' ++ suf))
      have hlen' : (pre' ++ suf).length ≤ fuel := by
        simp only [List.cons_append, List.length_cons, List.length_append] at hlen
        simp only [List.length_append]
        omega
      have hlook2 : lookOk (prevAt (some p0) pre') = true := by
        rw [← prevAt_cons prev p0 pre']
        exact hlook
      by_cases hl : lookOk prev = true
      · rw [if_pos hl]
        cases hpc : parseCall (p0 :: (pre' ++ suf)) with
        | none => exact ih (some p0) (pre' ++ suf) pre' suf n r hlen' rfl hlook2 hparse
        | some pr =>
          obtain ⟨n', rest'⟩ := pr
          obtain ⟨c0', nr', w', hn', hc0', hdec', hnchars', hwchars'⟩ := parseCall_inv hpc
          have hX : (p0 :: pre') ++ suf = n' ++ (w' ++ '(' :: rest') := by
            rw [List.cons_append, hdec', List.append_assoc]
          rcases List.append_eq_append_iff.1 hX with ⟨a', hEa, hsufa⟩ | ⟨c', hEc, hsufc2⟩
          · exfalso
            obtain ⟨x, hx⟩ := getLast?_cons_isSome p0 pre'
            have hxl : lookOk (some x) = true := by
              have hpa : prevAt prev (p0 :: pre') = some x := by
                unfold prevAt
                rw [hx]
              rw [hpa] at hlook
              exact hlook
            have hxn : x ∈ n' := by
              rw [hEa]
              exact List.mem_append_left _ (List.mem_of_mem_getLast? (by rw [hx]; rfl))
            rw [name_char_lookFail (hnchars' x hxn)] at hxl
            exact absurd hxl (by decide)
          · rcases List.append_eq_append_iff.1 hsufc2 with ⟨b', hcb, hrest⟩ | ⟨d', hwd, hsufd⟩
            · cases b' with
              | nil =>
                exfalso
                rw [List.nil_append, hsufc] at hrest
                injection hrest with h1 h2
                rw [← h1] at hc0
                exact absurd hc0 (by decide)
              | cons b0 b'' =>
                rw [List.cons_append] at hrest
                injection hrest with hb0 hrest2
                have hE2 : p0 :: pre' = (n' ++ w') ++ '(' :: b'' := by
                  rw [hEc, hcb, ← hb0, ← List.append_assoc]
                have hlook3 : lookOk (prevAt (some '(') b'') = true := by
                  rw [hE2, prevAt_append_cons] at hlook
                  exact hlook
                have hlenR : rest'.length ≤ fuel := by
                  have hlenc := congrArg List.length hdec'
                  simp only [List.cons_append, List.length_cons, List.length_append] at hlenc hlen
                  omega
                exact List.mem_cons_of_mem _
                  (ih (some '(') rest' b'' suf n r hlenR hrest2 hlook3 hparse)
            · cases d' with
              | nil =>
                exfalso
                rw [List.nil_append, hsufc] at hsufd
                have hsufd' := hsufd.symm
                injection hsufd' with h1 h2
                rw [← h1] at hc0
                exact absurd hc0 (by decide)
              | cons d0 d'' =>
                exfalso
                rw [List.cons_append] at hsufd
                rw [hsufc] at hsufd
                injection hsufd with h1 h2
                have hd0w : d0 ∈ w' := by
                  rw [hwd]
                  exact List.mem_append_right _ (List.mem_cons_self _ _)
                have : isWs c0 = true := by
                  rw [h1]
                  exact hwchars' d0 hd0w
                rw [ws_not_identStart this] at hc0
                exact absurd hc0 (by decide)
      · rw [if_neg hl]
        exact ih (some p0) (pre' ++ suf) pre' suf n r hlen' rfl hlook2 hparse

theorem identChar_ne_dot {c : Char} (h : isIdentChar c = true) : c ≠ '.' := by
  intro hc
  subst hc
  exact absurd h (by decide)

theorem headSegment_eq_self {f : List Char} (hf : ∀ c ∈ f, c ≠ '.') :
    headSegment f = f := by
  unfold headSegment
  rw [List.takeWhile_eq_self_iff]
  intro x hx
  simpa using hf x hx

theorem lastSegment_eq_self {f : List Char} (hf : ∀ c ∈ f, c ≠ '.') :
    lastSegment f = f := by
  unfold lastSegment
  have hrev : f.reverse.takeWhile (fun x => x != '.') = f.reverse :=
    List.takeWhile_eq_self_iff.2
      (fun x hx => by simpa using hf x (List.mem_reverse.1 hx))
  rw [hrev, List.reverse_reverse]

/-- Inversion of one anchored-declaration match: the matched span is
leading whitespace, the keyword, at least one whitespace, the
identifier, optional whitespace, and one terminator. -/
theorem parseDeclKw_inv {kw terms l n r : List Char}
    (h : parseDeclKw kw terms l = some (n, r)) :
    ∃ w1 w2 c0 nr w3 t,
      l = w1 ++ (kw ++ (w2 ++ (c0 :: (nr ++ (w3 ++ t :: r)))))
        ∧ (∀ c ∈ w1, isWs c = true)
        ∧ w2 ≠ [] ∧ (∀ c ∈ w2, isWs c = true)
        ∧ n = c0 :: nr ∧ isIdentStart c0 = true
        ∧ (∀ c ∈ nr, isIdentChar c = true)
        ∧ (∀ c ∈ w3, isWs c = true) ∧ t ∈ terms := by
  simp only [parseDeclKw] at h
  split at h
  case isFalse => exact absurd h (by simp)
  case isTrue hpre =>
    split at h
    case h_2 => exact absurd h (by simp)
    case h_1 w r2 heq1 =>
      split at h
      case isFalse => exact absurd h (by simp)
      case isTrue hw =>
        split at h
        case h_2 => exact absurd h (by simp)
        case h_1 c r3 heq2 =>
          split at h
          case isFalse => exact absurd h (by simp)
          case isTrue hc =>
            split at h
            case h_2 => exact absurd h (by simp)
            case h_1 t rest heq3 =>
              split at h
              case isFalse => exact absurd h (by simp)
              case isTrue ht =>
                injection h with h0
                rw [Prod.mk.injEq] at h0
                obtain ⟨hn0, hr0⟩ := h0
                subst hr0
                have hpre2 := List.isPrefixOf_iff_prefix.1 hpre
                obtain ⟨tl, htl⟩ := hpre2
                have hdrop : (l.dropWhile isWs).drop kw.length = tl := by
                  rw [← htl, List.drop_left]
                have hdw : l.dropWhile isWs = kw ++ (w :: r2) := by
                  rw [← htl, hdrop.symm.trans heq1]
                have hr2 : r2 = r2.takeWhile isWs ++ (c :: r3) := by
                  conv_lhs => rw [← List.takeWhile_append_dropWhile isWs r2]
                  rw [heq2]
                have hr3 : r3 = r3.takeWhile isIdentChar ++ r3.dropWhile isIdentChar :=
                  (List.takeWhile_append_dropWhile _ _).symm
                have hdwr3 : r3.dropWhile isIdentChar
                    = (r3.dropWhile isIdentChar).takeWhile isWs ++ (t :: rest) := by
                  conv_lhs =>
                    rw [← List.takeWhile_append_dropWhile isWs (r3.dropWhile isIdentChar)]
                  rw [heq3]
                refine ⟨l.takeWhile isWs, w :: r2.takeWhile isWs, c,
                  r3.takeWhile isIdentChar,
                  (r3.dropWhile isIdentChar).takeWhile isWs, t, ?_,
                  fun x hx => List.mem_takeWhile_imp hx, by simp, ?_,
                  hn0.symm, hc, fun x hx => List.mem_takeWhile_imp hx,
                  fun x hx => List.mem_takeWhile_imp hx, contains_iff.1 ht⟩
                · simp only [List.cons_append]
                  rw [← hdwr3, ← hr3, ← hr2, ← hdw,
                    List.takeWhile_append_dropWhile]
                · intro x hx
                  rcases List.mem_cons.1 hx with rfl | hx
                  · exact hw
                  · exact List.mem_takeWhile_imp hx

theorem parseDeclKw_suffix {kw terms l n r : List Char}
    (h : parseDeclKw kw terms l = some (n, r)) :
    ∃ consumed, l = consumed ++ r := by
  obtain ⟨w1, w2, c0, nr, w3, t, hl, _⟩ := parseDeclKw_inv h
  refine ⟨w1 ++ (kw ++ (w2 ++ (c0 :: (nr ++ (w3 ++ [t]))))), ?_⟩
  rw [hl]
  simp

theorem scanDeclGo_inv {kw terms : List Char} :
    ∀ (fuel : Nat) (b : Bool) (l n : List Char),
      n ∈ scanDeclGo kw terms fuel b l →
      ∃ pre suf r, l = pre ++ suf ∧ parseDeclKw kw terms suf = some (n, r) := by
  intro fuel
  induction fuel with
  | zero =>
    intro b l n h
    replace h : n ∈ ([] : List (List Char)) := h
    simp at h
  | succ fuel ih =>
    intro b l n h
    cases l with
    | nil =>
      replace h : n ∈ ([] : List (List Char)) := h
      simp at h
    | cons c cs =>
      replace h : n ∈ (if b then
          match parseDeclKw kw terms (c :: cs) with
          | some (nn, rest) => nn :: scanDeclGo kw terms fuel false rest
          | none => scanDeclGo kw terms fuel (c == '\n') cs
        else scanDeclGo kw terms fuel (c == '\n') cs) := h
      by_cases hb : b = true
      · rw [if_pos hb] at h
        cases hpd : parseDeclKw kw terms (c :: cs) with
        | some pr =>
          obtain ⟨nn, rest⟩ := pr
          rw [hpd] at h
          rcases List.mem_cons.1 h with heq | h
          · subst heq
            exact ⟨[], c :: cs, rest, by simp, hpd⟩
          · obtain ⟨pre, suf, r, h1, h2⟩ := ih false rest n h
            obtain ⟨consumed, hcon⟩ := parseDeclKw_suffix hpd
            refine ⟨consumed ++ pre, suf, r, ?_, h2⟩
            rw [hcon, h1, List.append_assoc]
        | none =>
          rw [hpd] at h
          obtain ⟨pre, suf, r, h1, h2⟩ := ih (c == '\n') cs n h
          exact ⟨c :: pre, suf, r, by rw [h1]; rfl, h2⟩
      · rw [if_neg hb] at h
        obtain ⟨pre, suf, r, h1, h2⟩ := ih (c == '\n') cs n h
        exact ⟨c :: pre, suf, r, by rw [h1]; rfl, h2⟩

/-- C10 (amended): every `def`-declared name whose identifier is not in
the keyword filter set also appears in that file's calls list — the
declaration line itself matches the call pattern, since only a word
character or dot immediately before the identifier suppresses a match
and the whitespace after `def` never is one — and `build_ccg` therefore
emits a CALLS edge from the file's node to its own function node, even
if nothing else calls it.  (Keyword-named declarations such as
`def print` are the exception the original claim missed.) -/
theorem c10_decl_self_edge {fs : FileSys} {p text f : List Char} {files : Files}
    (htext : fs p = some text)
    (hf : f ∈ scanDecl kwDef ['('] text)
    (hkw : f ∉ _PY_KEYWORDS)
    (hmem : (p, extract_symbols_and_calls fs p) ∈ files) :
    f ∈ (extract_symbols_and_calls fs p).functions
      ∧ f ∈ (extract_symbols_and_calls fs p).calls
      ∧ callsEdge p p f ∈ (build_ccg files).edges := by
  obtain ⟨pre, suf, r, hsplit, hpd⟩ := scanDeclGo_inv _ _ _ _ hf
  obtain ⟨w1, w2, c0, nr, w3, t, hsuf, hw1, hw2ne, hw2, hn, hc0, hnr, hw3, ht⟩ :=
    parseDeclKw_inv hpd
  have ht' : t = '(' := by simpa using ht
  subst ht'
  have hfchars : ∀ c ∈ f, isIdentChar c = true := by
    intro c hc
    rw [hn] at hc
    rcases List.mem_cons.1 hc with rfl | hc
    · exact identStart_identChar hc0
    · exact hnr c hc
  have hfdot : ∀ c ∈ f, c ≠ '.' := fun c hc => identChar_ne_dot (hfchars c hc)
  obtain ⟨w20, w2', hw2c⟩ : ∃ w20 w2', w2 = w20 :: w2' := by
    cases w2 with
    | nil => exact absurd rfl hw2ne
    | cons a b => exact ⟨a, b, rfl⟩
  have htext_eq : text
      = ((pre ++ w1 ++ kwDef) ++ w20 :: w2') ++ (c0 :: (nr ++ (w3 ++ '(' :: r))) := by
    rw [hsplit, hsuf, hw2c]
    simp [List.append_assoc]
  have hcall : f ∈ scanCalls text := by
    show f ∈ scanCallsGo text.length none text
    apply scanCallsGo_complete text.length none text
      ((pre ++ w1 ++ kwDef) ++ w20 :: w2') (c0 :: (nr ++ (w3 ++ '(' :: r))) f r
      le_rfl htext_eq
    · rw [prevAt_append_cons]
      exact lookOk_prevAt_ws (hw2 w20 (by rw [hw2c]; exact List.mem_cons_self _ _))
        (fun x hx => hw2 x (by rw [hw2c]; exact List.mem_cons_of_mem _ hx))
    · rw [hn]
      exact parseCall_at_decl hc0 hnr hw3
  have htne : ¬(text = []) := by
    intro h0
    have hlen := congrArg List.length htext_eq
    rw [h0] at hlen
    simp only [List.length_nil, List.length_append, List.length_cons] at hlen
    omega
  have hfuncs : f ∈ (extract_symbols_and_calls fs p).functions := by
    simp only [extract_symbols_and_calls, _read_text]
    rw [htext]
    rw [if_neg htne]
    exact mem_uniq.2 hf
  have hfkwfilter : (!(_PY_KEYWORDS.contains (headSegment f))) = true := by
    rw [headSegment_eq_self hfdot]
    simp only [Bool.not_eq_true']
    by_contra hcon
    rw [Bool.not_eq_false] at hcon
    exact hkw (contains_iff.1 hcon)
  have hcalls : f ∈ (extract_symbols_and_calls fs p).calls := by
    simp only [extract_symbols_and_calls, _read_text]
    rw [htext]
    rw [if_neg htne]
    exact mem_uniq.2 (List.mem_filter.2 ⟨hcall, hfkwfilter⟩)
  refine ⟨hfuncs, hcalls, ?_⟩
  apply mem_build_edges.2
  apply mem_ccgEdges.2
  refine ⟨(p, extract_symbols_and_calls fs p), hmem, f, hcalls, ?_⟩
  unfold edgeForCall
  simp only [lastSegment_eq_self hfdot]
  rw [if_pos hfuncs]
  exact List.mem_singleton.2 rfl

/-- C10 (witness): in the two-file example, `a.py`'s own `def foo` line
puts `foo` in its calls and yields the self edge. -/
theorem c10_witness :
    nmFoo ∈ (extract_symbols_and_calls fsAB pathA).calls
      ∧ callsEdge pathA pathA nmFoo ∈ (build_ccg parsedAB).edges := by
  have h := @c10_decl_self_edge fsAB pathA textA nmFoo parsedAB
    (by decide) (by decide) (by decide) (by decide)
  exact ⟨h.2.1, h.2.2⟩
